import Mathlib

/-!
# Verification of the linkrottie mirroring core

Shallow embedding of the linkrottie repository's core logic:

* `src/linkrottie/git.py` — remote-address parsing (`RemoteRepo.parse_url`),
  serialization (`deparse`), relative resolution (`join_url`), the submodule
  descriptor scan (`Local._get_submodules`) and the coordinator
  (`Local.mirror_repo`);
* `src/linkrottie/taskqueue.py` — the single-threaded queue
  (`SingleTaskQueue.runall`) and the threaded queue
  (`ThreadedTaskQueue.runall` / `_runthread`).

Python regular expressions are embedded as deterministic maximal-munch
matchers; at every place this is done a comment argues why backtracking can
never produce a different result for the concrete pattern being modelled.
-/

namespace Linkrottie

/-! ## Character classes of the regexes in `RemoteRepo.parse_url` -/

/-- The character class `[^/?#@:]` used for the user and host groups. -/
def isHostChar (c : Char) : Bool :=
  !(c = '/' || c = '?' || c = '#' || c = '@' || c = ':')

/-- ASCII reading of the regex class `\w` (the inputs of interest are ASCII). -/
def isWordChar (c : Char) : Bool := c.isAlphanum || c = '_'

/-- ASCII reading of the regex class `\d`. -/
def isDigitChar (c : Char) : Bool := c.isDigit

/-- `.` in a Python regex without `re.DOTALL`: any character except a newline. -/
def notNL (c : Char) : Bool := c != '\n'

/-- Python `s.startswith(pre)` (character-level, as all address handling in
this embedding). -/
def pyStartsWith (s pre : String) : Bool := pre.toList.isPrefixOf s.toList

/-! ## `RemoteRepo` and its three variants -/

/-- Which of the three `RemoteRepo` subclasses an address belongs to:
`RemoteRepoUrl`, `RemoteRepoScp` or `RemoteRepoFile`. -/
inductive RKind where
  | url
  | scp
  | file
deriving DecidableEq

/-- The parts of a remote repository address (`RemoteRepo.__init__` stores
five strings; `None` arguments become `''`).  `kind` records the subclass. -/
structure RemoteRepo where
  kind : RKind
  scheme : String
  user : String
  host : String
  port : String
  path : String
deriving DecidableEq

/-- The optional group `([^/?#@:]+@)?`: a greedy run of allowed characters
followed by a literal `@`; the `@` is kept inside the group, as in the
source regex.  Maximal munch is faithful: the run cannot contain `@`, so
any shorter run ends on an allowed character, never on the required `@`;
and if the group fails to match, leaving it out cannot be compensated later
because the following host group draws from the same character class. -/
def matchUser (l : List Char) : List Char × List Char :=
  match l.dropWhile isHostChar with
  | '@' :: r =>
    if (l.takeWhile isHostChar).isEmpty then ([], l)
    else (l.takeWhile isHostChar ++ ['@'], r)
  | _ => ([], l)

/-- The five groups of the URL pattern (user and port keep their `@` / `:`
separators, exactly as the source regex includes them in the groups), plus
the unconsumed remainder of the input. -/
structure UrlParts where
  scheme : List Char
  user : List Char
  host : List Char
  port : List Char
  path : List Char
  rest : List Char
deriving DecidableEq

/-- The three groups of the SCP pattern plus the unconsumed remainder. -/
structure ScpParts where
  user : List Char
  host : List Char
  path : List Char
  rest : List Char
deriving DecidableEq

/-- `re.match` with the URL pattern of `RemoteRepo.parse_url`:
`(\w+)://([^/?#@:]+@)?([^/?#@:]+)(:\d+)?(/.*)`.

Returns the five groups together with the unconsumed remainder of the
input: `re.match` is a prefix match and `.` stops at a newline, so the
remainder is nonempty exactly when the path group was cut short by a `\n`.

Backtracking never helps this pattern: shrinking the greedy `\w+`, host or
digit runs leaves a character of the same class at the boundary, which can
never equal the literal (`:`, `/`) that must follow, and dropping the
optional port still requires the path to start with `/` where a `:` stands. -/
def urlMatch (l : List Char) : Option UrlParts :=
  if (l.takeWhile isWordChar).isEmpty then none else
  match l.dropWhile isWordChar with
  | ':' :: '/' :: '/' :: r2 =>
    if ((matchUser r2).2.takeWhile isHostChar).isEmpty then none else
    match (matchUser r2).2.dropWhile isHostChar with
    | ':' :: r4 =>
      if (r4.takeWhile isDigitChar).isEmpty then none else
      (match r4.dropWhile isDigitChar with
       | '/' :: r5 =>
         some ⟨l.takeWhile isWordChar, (matchUser r2).1,
               (matchUser r2).2.takeWhile isHostChar, ':' :: r4.takeWhile isDigitChar,
               '/' :: r5.takeWhile notNL, r5.dropWhile notNL⟩
       | _ => none)
    | '/' :: r4 =>
      some ⟨l.takeWhile isWordChar, (matchUser r2).1,
            (matchUser r2).2.takeWhile isHostChar, [],
            '/' :: r4.takeWhile notNL, r4.dropWhile notNL⟩
    | _ => none
  | _ => none

/-- `re.match` with the SCP pattern of `RemoteRepo.parse_url`:
`([^/?#@:]+@)?([^/?#@:]*):(.*)`.  Returns user (with `@`), host, path and
the unconsumed remainder (the `.*` group stops at a newline, the match
itself still succeeds).  Backtracking cannot rescue a failed match: the
host run cannot contain `:`, so any shorter host run ends on a non-`:`
character, and discarding a matched user group makes the host run stop at
the very `@` the user group consumed. -/
def scpMatch (l : List Char) : Option ScpParts :=
  match (matchUser l).2.dropWhile isHostChar with
  | ':' :: r2 => some ⟨(matchUser l).1, (matchUser l).2.takeWhile isHostChar,
                       r2.takeWhile notNL, r2.dropWhile notNL⟩
  | _ => none

/-- `RemoteRepo.parse_url`: try the URL pattern, then the SCP pattern, then
fall back to a file address, stripping a leading `file://` if present. -/
def parse_url (s : String) : RemoteRepo :=
  match urlMatch s.toList with
  | some ⟨scheme, user, host, port, path, _⟩ =>
    ⟨.url, ⟨scheme⟩, ⟨user⟩, ⟨host⟩, ⟨port⟩, ⟨path⟩⟩
  | none =>
    match scpMatch s.toList with
    | some ⟨user, host, path, _⟩ => ⟨.scp, "", ⟨user⟩, ⟨host⟩, "", ⟨path⟩⟩
    | none =>
      if pyStartsWith s "file://" then ⟨.file, "file://", "", "", "", ⟨s.toList.drop 7⟩⟩
      else ⟨.file, "", "", "", "", s⟩

/-- The variant-specific `deparse` methods:
`RemoteRepoUrl`: `f'{scheme}://{user}{host}{port}{path}'`;
`RemoteRepoScp`: `f'{user}{host}:{path}'`;
`RemoteRepoFile`: `self.host + self.path`. -/
def deparse (r : RemoteRepo) : String :=
  match r.kind with
  | .url => r.scheme ++ "://" ++ r.user ++ r.host ++ r.port ++ r.path
  | .scp => r.user ++ r.host ++ ":" ++ r.path
  | .file => r.host ++ r.path

/-! ## `join_url` -/

/-- `p.rpartition('/')[0]`: everything before the last `/` of `p`, or the
empty string when `p` has no `/` (Python returns `('', '', p)` then). -/
def rpartBefore (l : List Char) : List Char :=
  match l.reverse.dropWhile (fun c => c != '/') with
  | [] => []
  | _ :: t => t.reverse

/-- The `while relative.startswith('../')` loop of `RemoteRepo.join_url`:
strip each leading `../` from the relative and drop one trailing component
of the path via `rpartition`. -/
def dropDotDots : List Char → List Char → List Char × List Char
  | '.' :: '.' :: '/' :: rel, p => dropDotDots rel (rpartBefore p)
  | rel, p => (rel, p)

/-- The first two statements of `RemoteRepo.join_url`:
`if relative.startswith('/'): relative = relative[1:]; p = ''`,
otherwise the base path is kept.  Returns the (possibly stripped) relative
and the starting path. -/
def joinStart (path relative : String) : List Char × List Char :=
  match relative.toList with
  | '/' :: t => (t, [])
  | l => (l, path.toList)

/-- `RemoteRepo.join_url`: a leading `/` empties the base path, each leading
`../` removes one trailing component, a nonempty remainder is appended after
a `/`; scheme, user, host and port are passed through to the constructor of
the same class. -/
def join_url (r : RemoteRepo) (relative : String) : RemoteRepo :=
  let start := joinStart r.path relative
  let rp := dropDotDots start.1 start.2
  let p := if rp.1.isEmpty then rp.2 else rp.2 ++ '/' :: rp.1
  { r with path := ⟨p⟩ }

/-! ## Alias rewriting (`Local.mirror_repo`, first loop) -/

/-- Replace every non-overlapping occurrence of `pat` in the character list,
left to right, exactly as Python `str.replace` scans.  The fuel argument
(instantiated with the input length, one unit per character consumed) only
makes the recursion structural. -/
def replaceAllFuel (rep pat : List Char) : Nat → List Char → List Char
  | 0, l => l
  | fuel + 1, l =>
    if pat.isPrefixOf l then rep ++ replaceAllFuel rep pat fuel (l.drop pat.length)
    else
      match l with
      | [] => []
      | c :: t => c :: replaceAllFuel rep pat fuel t

/-- Python `s.replace(old, new)` for a nonempty `old`: every non-overlapping
occurrence is replaced, left to right.  The alias keys exercised by the
program are nonempty; for an empty `old` (which `startswith` would always
accept) the model returns `s` unchanged, while Python would interleave
`new` around every character — the difference is irrelevant to every
theorem below, all of which use nonempty keys. -/
def pyReplace (s old new : String) : String :=
  if old.toList.isEmpty then s
  else ⟨replaceAllFuel new.toList old.toList s.toList.length s.toList⟩

/-- The alias loop at the top of `Local.mirror_repo`: the first configured
alias whose key is a string prefix of the remote triggers
`remote.replace(original, replacement)`, then the loop breaks; later
aliases are not consulted.  Note that `str.replace` replaces every
occurrence of the key, not only the leading one. -/
def applyAliases : List (String × String) → String → String
  | [], remote => remote
  | (original, replacement) :: rest, remote =>
    if pyStartsWith remote original then pyReplace remote original replacement
    else applyAliases rest remote

/-! ## Submodule extraction (`Local._get_submodules`) -/

/-- The regex class `\s`, restricted to ASCII (git descriptor files are
ASCII-indented): space, tab, newline, carriage return, vertical tab,
form feed. -/
def isSpaceRe (c : Char) : Bool :=
  c = ' ' || c = '\t' || c = '\n' || c = '\r' || c = '\x0b' || c = '\x0c'

/-- `re.match(r'\s+url\s*=\s*', line)` followed by `line[mo.end():]`: at
least one whitespace character, the literal `url`, optional whitespace, `=`,
optional whitespace, and the remainder of the line is the yielded value.
The greedy `\s+` / `\s*` runs are modelled by maximal munch, equivalent here
because the characters that must follow each run (`u`, `=`) are never
whitespace and a shorter final run only puts whitespace back onto the front
of an already-failed or already-determined value. -/
def matchUrlLine (l : List Char) : Option (List Char) :=
  match l.takeWhile isSpaceRe, l.dropWhile isSpaceRe with
  | [], _ => none
  | _ :: _, 'u' :: 'r' :: 'l' :: r1 =>
    (match r1.dropWhile isSpaceRe with
     | '=' :: r2 => some (r2.dropWhile isSpaceRe)
     | _ => none)
  | _, _ => none

/-- Python `str.splitlines()` restricted to the `\n`, `\r\n` and `\r`
terminators (the only line terminators occurring in git descriptor files);
as in Python, a trailing terminator produces no trailing empty line. -/
def splitlinesAux : List Char → List Char → List (List Char)
  | '\r' :: '\n' :: t, acc => acc.reverse :: splitlinesAux t []
  | '\n' :: t, acc => acc.reverse :: splitlinesAux t []
  | '\r' :: t, acc => acc.reverse :: splitlinesAux t []
  | c :: t, acc => splitlinesAux t (c :: acc)
  | [], [] => []
  | [], acc => [acc.reverse]

/-- `text.splitlines()` on a descriptor. -/
def splitlines (text : String) : List (List Char) := splitlinesAux text.toList []

/-- `Local._get_submodules` applied to descriptor text (the subprocess that
fetches the text is the VCS executor, outside the core): yield the value of
every matching line, in file order, including duplicates. -/
def getSubmodules (text : String) : List String :=
  (splitlines text).filterMap (fun l => (matchUrlLine l).map (fun v => ⟨v⟩))

/-! ## The mirror coordinator (`Local.mirror_repo`) -/

/-- Python `str.lstrip('/')`: remove every leading `/`. -/
def lstripSlash (s : String) : String := ⟨s.toList.dropWhile (fun c => c = '/')⟩

/-- `local = self.path / repo.host / repo.path.lstrip('/')`, with `Path`
division modelled as `/`-separated string concatenation. -/
def localTarget (root : String) (r : RemoteRepo) : String :=
  root ++ "/" ++ r.host ++ "/" ++ lstripSlash r.path

/-- External collaborators and configuration seen by one `Local.mirror_repo`
call: the storage root (`self.path`), the alias table (`self.aliases`, in
configured order), the filesystem query `local.is_dir()`, and the submodule
descriptor text returned by `get_submodules_file` for a local path (`none`
models the two expected-absence outcomes: no `.gitmodules`, no commits). -/
structure Env where
  root : String
  aliases : List (String × String)
  isDir : String → Bool
  descriptor : String → Option String

/-- The observable actions of `Local.mirror_repo`, in program order:
`clone` models `self._clone(remote, local)`, `update` models
`self._update(local)`, and `claimed` marks the execution of
`self.already_mirrored.append(local)`. -/
inductive MEvent where
  | clone (remote : String) (target : String)
  | update (target : String)
  | claimed (target : String)
deriving DecidableEq

/-- `local = self.path / RemoteRepo.parse_url(aliased remote)` as computed by
`Local.mirror_repo` for a raw address: alias rewrite, parse, storage path. -/
def targetOf (env : Env) (remote : String) : String :=
  localTarget env.root (parse_url (applyAliases env.aliases remote))

/-- The submodule-resolution loop at the end of `Local.mirror_repo`: for
every URL yielded by `_get_submodules`, a URL starting with `..` or `/` is
address-relative and goes through `repo.join_url(url).deparse()`; any other
URL is submitted unchanged. -/
def mirrorSubs (repo : RemoteRepo) (txt : Option String) : List String :=
  match txt with
  | none => []
  | some text =>
    (getSubmodules text).map (fun url =>
      if pyStartsWith url ".." || pyStartsWith url "/" then
        deparse (join_url repo url)
      else url)

/-- One invocation of `Local.mirror_repo`, with the recursive submission
replaced by the list of submodule URLs it appends to the task queue.
Returns the new `already_mirrored` list, the event trace in program order,
and the submitted submodule URLs.  Faithful to the source order: the
membership test on `already_mirrored` comes first; the clone-or-update
happens next; **only then** is the target appended to `already_mirrored`
(the `claimed` event); finally the submodule URLs are read and resolved. -/
def mirror_repo (env : Env) (already : List String) (remote : String) :
    List String × List MEvent × List String :=
  if targetOf env remote ∈ already then (already, [], [])
  else
    (already ++ [targetOf env remote],
     [(if env.isDir (targetOf env remote) then MEvent.update (targetOf env remote)
       else MEvent.clone (applyAliases env.aliases remote) (targetOf env remote)),
      MEvent.claimed (targetOf env remote)],
     mirrorSubs (parse_url (applyAliases env.aliases remote))
       (env.descriptor (targetOf env remote)))

/-! ## Task queues (`taskqueue.py`)

A queued task is opaque to the queue: it is executed once, and while it runs
it may `append` further tasks.  For the drain-completeness claims a task is
modelled by the tree of tasks it transitively submits: executing the task
with identity `tid` submits exactly the tasks at the roots of `children`.
This is the deterministic, finite, bounded-depth workload the claims
quantify over. -/

/-- A deterministic task: its identity and the tasks its action submits. -/
inductive TTree where
  | mk (tid : Nat) (children : List TTree)

mutual
/-- Decidable equality for tasks (the automatic derivation does not handle
the nested occurrence under `List`). -/
def TTree.deq : (a b : TTree) → Decidable (a = b)
  | .mk i cs, .mk j ds =>
    match Nat.decEq i j, TTree.deqList cs ds with
    | isTrue h1, isTrue h2 => isTrue (by rw [h1, h2])
    | isFalse h1, _ => isFalse (fun h => h1 (TTree.mk.inj h).1)
    | _, isFalse h2 => isFalse (fun h => h2 (TTree.mk.inj h).2)

/-- Decidable equality for lists of tasks. -/
def TTree.deqList : (a b : List TTree) → Decidable (a = b)
  | [], [] => isTrue rfl
  | [], _ :: _ => isFalse (by simp)
  | _ :: _, [] => isFalse (by simp)
  | a :: as, b :: bs =>
    match TTree.deq a b, TTree.deqList as bs with
    | isTrue h1, isTrue h2 => isTrue (by rw [h1, h2])
    | isFalse h1, _ => isFalse (fun h => h1 (List.cons.inj h).1)
    | _, isFalse h2 => isFalse (fun h => h2 (List.cons.inj h).2)
end

instance : DecidableEq TTree := TTree.deq

/-- Identity of a task. -/
def TTree.tid : TTree → Nat
  | .mk i _ => i

/-- Tasks submitted while a task executes. -/
def TTree.children : TTree → List TTree
  | .mk _ cs => cs

mutual
/-- Size of a task tree (number of transitively generated tasks). -/
def TTree.sz : TTree → Nat
  | .mk _ cs => 1 + szList cs

/-- Total size of a list of task trees. -/
def szList : List TTree → Nat
  | [] => 0
  | t :: ts => t.sz + szList ts
end

mutual
/-- The plain single-threaded recursive simulation of a task (the
`simulate_task` reference implementation in `test/test_taskqueue.py`):
execute the task, then recursively simulate everything it submits.
Returns the list of executed task identities. -/
def TTree.simRun : TTree → List Nat
  | .mk i cs => i :: simList cs

/-- Recursive simulation of a seed list of tasks, in order. -/
def simList : List TTree → List Nat
  | [] => []
  | t :: ts => t.simRun ++ simList ts
end

theorem szList_append (a b : List TTree) : szList (a ++ b) = szList a + szList b := by
  induction a with
  | nil => simp [szList]
  | cons t ts ih => simp [szList, ih]; omega


theorem TTree.sz_pos (t : TTree) : 0 < t.sz := by
  cases t with
  | mk i cs => simp [TTree.sz]

theorem simList_append (a b : List TTree) :
    simList (a ++ b) = simList a ++ simList b := by
  induction a with
  | nil => simp [simList]
  | cons t ts ih => simp [simList, ih]

/-- `SingleTaskQueue.runall`: repeatedly pop the front of the queue and
execute it; anything the task appends goes to the back of the same list.
Returns the executed identities in execution order. -/
def runallSingle : List TTree → List Nat
  | [] => []
  | .mk i cs :: rest => i :: runallSingle (rest ++ cs)
termination_by q => szList q
decreasing_by
  simp [szList_append, szList, TTree.sz]
  omega

/-- State of `ThreadedTaskQueue` while `runall` drains it: the pending tasks
(the `queue.Queue` contents), the tasks currently being executed by a worker
thread, and the identities of completed tasks (`task_done` has run for
them).  Multisets: the queue promises no ordering between workers. -/
structure TQState where
  pending : Multiset TTree
  inflight : Multiset TTree
  done : Multiset Nat
deriving DecidableEq

/-- Interleaved execution of `ThreadedTaskQueue._runthread` workers.  A
worker either takes one pending task (`self._queue.get()`), or finishes an
in-flight one: the finishing worker has already `put` every task the action
submitted (the `append`s happen during `task(*args, **kwargs)`), and then
calls `self._queue.task_done()` in the `finally` block — so the children
enter `pending` no later than the task is accounted done, which is the
atomicity the unfinished-task counter of `queue.join()` relies on. -/
inductive TQStep : TQState → TQState → Prop
  | take (t : TTree) (s : TQState) (h : t ∈ s.pending) :
      TQStep s ⟨s.pending.erase t, t ::ₘ s.inflight, s.done⟩
  | finish (t : TTree) (s : TQState) (h : t ∈ s.inflight) :
      TQStep s ⟨s.pending + (↑t.children : Multiset TTree), s.inflight.erase t,
                t.tid ::ₘ s.done⟩

/-- Executions of the threaded queue: any interleaving of worker steps. -/
def TQReach : TQState → TQState → Prop := Relation.ReflTransGen TQStep

/-- The state of the queue when `runall` is entered: the seed tasks pending,
no worker busy, nothing done. -/
def initState (q : List TTree) : TQState := ⟨↑q, 0, 0⟩

/-- Quiescence: `queue.join()` returns — every `put` task has been
`task_done`, i.e. nothing is pending and no worker is mid-task.  `runall`
then stops the workers with one terminate-sentinel each and returns. -/
def Quiescent (s : TQState) : Prop := s.pending = 0 ∧ s.inflight = 0

/-- The multiset of identities a state still owes, plus what it has done. -/
def potential (s : TQState) : Multiset Nat :=
  s.done + (s.pending + s.inflight).bind (fun t => (↑t.simRun : Multiset Nat))

theorem bind_coe_simRun (cs : List TTree) :
    (↑cs : Multiset TTree).bind (fun t => (↑t.simRun : Multiset Nat)) = ↑(simList cs) := by
  induction cs with
  | nil => simp [simList]
  | cons t ts ih =>
    rw [← Multiset.cons_coe, Multiset.cons_bind, ih, simList, ← Multiset.coe_add]

/-- The multiset of executed identities at the end of a run, as transported
by `TTree.simRun`, decomposed at the root. -/
theorem simRun_decomp (t : TTree) :
    (↑t.simRun : Multiset Nat)
      = t.tid ::ₘ (↑t.children : Multiset TTree).bind (fun c => (↑c.simRun : Multiset Nat)) := by
  cases t with
  | mk i cs =>
    simp only [TTree.simRun, TTree.tid, TTree.children, bind_coe_simRun,
      ← Multiset.cons_coe]

/-- Each worker step preserves the potential: a `take` only moves a task
between the pending and in-flight multisets, and a `finish` trades the
finished task's tree for its identity plus its children's trees. -/
theorem potential_step {s s' : TQState} (h : TQStep s s') : potential s' = potential s := by
  cases h with
  | take t s ht =>
    have hp : s.pending.erase t + (t ::ₘ s.inflight) = s.pending + s.inflight := by
      rw [← Multiset.singleton_add, ← add_assoc, add_comm (s.pending.erase t) {t},
          Multiset.singleton_add, Multiset.cons_erase ht]
    simp [potential, hp]
  | finish t s ht =>
    have hin : s.inflight = t ::ₘ s.inflight.erase t := (Multiset.cons_erase ht).symm
    simp only [potential]
    conv_rhs => rw [hin]
    simp only [Multiset.add_bind, Multiset.cons_bind]
    rw [simRun_decomp t]
    simp only [← Multiset.singleton_add]
    abel

/-- The potential is invariant along any interleaving. -/
theorem potential_reach {s s' : TQState} (h : TQReach s s') :
    potential s' = potential s := by
  induction h with
  | refl => rfl
  | tail _ hstep ih => rw [potential_step hstep, ih]

/-- At quiescence the queue's `done` multiset is exactly the single-threaded
recursive simulation of the seed tasks: every transitively generated task
was executed exactly once, no matter how the workers interleaved. -/
theorem quiescent_done {q : List TTree} {s : TQState}
    (h : TQReach (initState q) s) (hq : Quiescent s) :
    s.done = ↑(simList q) := by
  have hp := potential_reach h
  rw [show potential s = s.done from by
        simp [potential, hq.1, hq.2]] at hp
  rw [hp]
  simp only [potential, initState, add_zero, zero_add, bind_coe_simRun]

/-- Decreasing measure for the threaded queue: a pending task counts twice
its tree size, an in-flight task one less (its `get` already happened). -/
def tqMeasure (s : TQState) : Nat :=
  (s.pending.map (fun t => 2 * t.sz)).sum + (s.inflight.map (fun t => 2 * t.sz - 1)).sum

theorem sum_twice_sz (cs : List TTree) :
    ((↑cs : Multiset TTree).map (fun t => 2 * t.sz)).sum = 2 * szList cs := by
  induction cs with
  | nil => simp [szList]
  | cons t ts ih =>
    rw [← Multiset.cons_coe, Multiset.map_cons, Multiset.sum_cons, ih, szList]
    ring

/-- Every worker step strictly decreases the measure, so every interleaving
of the threaded queue terminates. -/
theorem tqMeasure_step {s s' : TQState} (h : TQStep s s') : tqMeasure s' < tqMeasure s := by
  cases h with
  | take t s ht =>
    have hp : s.pending = t ::ₘ s.pending.erase t := (Multiset.cons_erase ht).symm
    have h1 : (s.pending.map (fun t => 2 * t.sz)).sum
        = 2 * t.sz + ((s.pending.erase t).map (fun t => 2 * t.sz)).sum := by
      conv_lhs => rw [hp]
      simp
    have h2 : ((t ::ₘ s.inflight).map (fun t => 2 * t.sz - 1)).sum
        = (2 * t.sz - 1) + (s.inflight.map (fun t => 2 * t.sz - 1)).sum := by
      simp
    have hpos := TTree.sz_pos t
    simp only [tqMeasure, h1, h2]
    omega
  | finish t s ht =>
    have hp : s.inflight = t ::ₘ s.inflight.erase t := (Multiset.cons_erase ht).symm
    have h1 : (s.inflight.map (fun t => 2 * t.sz - 1)).sum
        = (2 * t.sz - 1) + ((s.inflight.erase t).map (fun t => 2 * t.sz - 1)).sum := by
      conv_lhs => rw [hp]
      simp
    have h2 : ((s.pending + (↑t.children : Multiset TTree)).map (fun t => 2 * t.sz)).sum
        = (s.pending.map (fun t => 2 * t.sz)).sum + 2 * szList t.children := by
      rw [Multiset.map_add, Multiset.sum_add, sum_twice_sz]
    have hsz : t.sz = 1 + szList t.children := by
      cases t with
      | mk i cs => simp [TTree.sz, TTree.children]
    simp only [tqMeasure, h1, h2]
    omega

/-- A non-quiescent state can always move: a worker can `get` a pending
task, or a busy worker eventually finishes its current task. -/
theorem step_of_not_quiescent {s : TQState} (h : ¬ Quiescent s) :
    ∃ s', TQStep s s' := by
  by_cases hp : s.pending = 0
  · have hi : s.inflight ≠ 0 := fun hi => h ⟨hp, hi⟩
    obtain ⟨t, ht⟩ := Multiset.exists_mem_of_ne_zero hi
    exact ⟨_, TQStep.finish t s ht⟩
  · obtain ⟨t, ht⟩ := Multiset.exists_mem_of_ne_zero hp
    exact ⟨_, TQStep.take t s ht⟩

/-- From any state some interleaving reaches quiescence; with
`tqMeasure_step`, every interleaving is finite, so `queue.join()` — and
hence `ThreadedTaskQueue.runall` — returns. -/
theorem exists_quiescent (s : TQState) : ∃ s', TQReach s s' ∧ Quiescent s' := by
  by_cases h : Quiescent s
  · exact ⟨s, Relation.ReflTransGen.refl, h⟩
  · obtain ⟨s1, hstep⟩ := step_of_not_quiescent h
    obtain ⟨s', hr, hq⟩ := exists_quiescent s1
    exact ⟨s', Relation.ReflTransGen.head hstep hr, hq⟩
termination_by tqMeasure s
decreasing_by exact tqMeasure_step hstep

/-- The single-threaded queue executes exactly the transitive closure of the
seed tasks: its execution list is a permutation of the recursive
simulation. -/
theorem runallSingle_perm (q : List TTree) :
    (↑(runallSingle q) : Multiset Nat) = ↑(simList q) := by
  induction q using runallSingle.induct with
  | case1 => simp [runallSingle, simList]
  | case2 i cs rest ih =>
    simp only [runallSingle, simList, TTree.simRun]
    rw [← Multiset.cons_coe, ih, simList_append, ← Multiset.coe_add, ← Multiset.coe_add,
        ← Multiset.cons_coe]
    simp only [← Multiset.singleton_add]
    abel

/-! ## Fallible tasks

For the failure-isolation claim a task additionally carries whether its
action raises an exception.  `children` are the tasks the action submits
before the failure point (`append` calls already made are not undone by a
later exception). -/

/-- A task whose action may raise. -/
inductive ETree where
  | mk (tid : Nat) (fails : Bool) (children : List ETree)

mutual
/-- Forget the failure flag.  `ThreadedTaskQueue._runthread` wraps the
action call in `except Exception: log.exception(...)` and reaches
`self._queue.task_done()` in its `finally` block either way, so for the
threaded queue a failing task steps exactly like a succeeding one. -/
def ETree.forget : ETree → TTree
  | .mk i _ cs => .mk i (forgetList cs)

/-- Forget the failure flags of a list of tasks. -/
def forgetList : List ETree → List TTree
  | [] => []
  | t :: ts => t.forget :: forgetList ts
end

/-- Total size of a list of fallible tasks. -/
def eszList (q : List ETree) : Nat := szList (forgetList q)

theorem forgetList_append (a b : List ETree) :
    forgetList (a ++ b) = forgetList a ++ forgetList b := by
  induction a with
  | nil => simp [forgetList]
  | cons t ts ih => simp [forgetList, ih]

/-- `SingleTaskQueue.runall` on fallible tasks.  The body of its `while`
loop calls `task(*args, **kwargs)` with **no** surrounding handler, so the
first raising task aborts the loop: the function returns the identities
executed to completion before the failure, and the identity of the raising
task whose exception propagates out of `runall` (or `none` when the drain
finishes normally). -/
def runallSingleE : List ETree → List Nat × Option Nat
  | [] => ([], none)
  | .mk i f cs :: rest =>
    if f then ([], some i)
    else
      let r := runallSingleE (rest ++ cs)
      (i :: r.1, r.2)
termination_by q => eszList q
decreasing_by
  simp [eszList, forgetList_append, szList_append, forgetList, szList, ETree.forget, TTree.sz]
  omega

/-! ## Specification-level model of `join` (§3 of the spec)

The spec describes `join(relative)` in terms of whole path components:
a leading `/` replaces the path entirely; each leading `../` removes one
trailing component; the remainder is appended.  Here a path is a list of
components (rendered as `/c₁/…/cₙ`), and the code's string-level
`rpartition` loop is proved to refine this component-level description. -/

/-- Render a component list as a `/`-rooted path string
(`[]` renders as the empty string, matching an exhausted path). -/
def renderComps : List (List Char) → List Char
  | [] => []
  | c :: cs => '/' :: (c ++ renderComps cs)

/-- The spec's `../` rule at component level: each leading `../` segment of
the relative removes one trailing component. -/
def specGo : List Char → List (List Char) → List Char × List (List Char)
  | '.' :: '.' :: '/' :: rest, comps => specGo rest comps.dropLast
  | rel, comps => (rel, comps)

/-- The spec's `join` path computation: a leading `/` replaces the path
entirely, each leading `../` removes one trailing component, and the
nonempty remainder is appended. -/
def specJoinPath (comps : List (List Char)) (rel : List Char) : List Char :=
  match rel with
  | '/' :: t =>
    let rc := specGo t []
    if rc.1.isEmpty then renderComps rc.2 else renderComps rc.2 ++ '/' :: rc.1
  | _ =>
    let rc := specGo rel comps
    if rc.1.isEmpty then renderComps rc.2 else renderComps rc.2 ++ '/' :: rc.1

theorem dropWhile_append_of_all {α : Type} {p : α → Bool} (xs ys : List α)
    (h : ∀ x ∈ xs, p x = true) :
    (xs ++ ys).dropWhile p = ys.dropWhile p := by
  induction xs with
  | nil => simp
  | cons a as ih =>
    simp only [List.cons_append, List.dropWhile_cons, h a (by simp), if_true]
    exact ih (fun x hx => h x (by simp [hx]))

theorem rpartBefore_append (l c : List Char) (h : ∀ x ∈ c, x ≠ '/') :
    rpartBefore (l ++ '/' :: c) = l := by
  have hall : ∀ x ∈ c.reverse, (x != '/') = true := by
    intro x hx
    simpa using h x (List.mem_reverse.mp hx)
  simp only [rpartBefore, List.reverse_append, List.reverse_cons]
  rw [List.append_assoc, dropWhile_append_of_all _ _ hall]
  simp [List.dropWhile]

theorem renderComps_concat (cs : List (List Char)) (c : List Char) :
    renderComps (cs ++ [c]) = renderComps cs ++ '/' :: c := by
  induction cs with
  | nil => simp [renderComps]
  | cons d ds ih => simp [renderComps, ih]

/-- On a rendered component path, `p.rpartition('/')[0]` removes exactly the
last component, as the spec says — provided no component contains a `/`. -/
theorem rpart_render (comps : List (List Char))
    (h : ∀ c ∈ comps, ∀ x ∈ c, x ≠ '/') :
    rpartBefore (renderComps comps) = renderComps comps.dropLast := by
  induction comps using List.reverseRecOn with
  | nil => rfl
  | append_singleton cs c _ =>
    rw [renderComps_concat, rpartBefore_append _ _ (h c (by simp)),
        List.dropLast_concat]

/-- The code's `rpartition`-based `../` loop computes the spec's
component-level `../` rule. -/
theorem dropDotDots_render : ∀ (rel : List Char) (comps : List (List Char)),
    (∀ c ∈ comps, ∀ x ∈ c, x ≠ '/') →
    dropDotDots rel (renderComps comps)
      = ((specGo rel comps).1, renderComps (specGo rel comps).2)
  | rel, comps, h => by
    rw [dropDotDots.eq_def]
    split
    · next rest =>
      have h' : ∀ c ∈ comps.dropLast, ∀ x ∈ c, x ≠ '/' :=
        fun c hc => h c (List.dropLast_subset comps hc)
      rw [rpart_render comps h,
          show specGo ('.' :: '.' :: '/' :: rest) comps = specGo rest comps.dropLast
            from by rw [specGo]]
      exact dropDotDots_render rest comps.dropLast h'
    · next hne =>
      rw [specGo.eq_def]
      split
      · next rest => exact absurd rfl (hne rest)
      · rfl
termination_by rel _ _ => rel.length

theorem toList_mk (l : List Char) : (⟨l⟩ : String).toList = l := rfl

theorem mk_append (a b : List Char) : (⟨a⟩ : String) ++ ⟨b⟩ = ⟨a ++ b⟩ := rfl

theorem joinStart_slash {rel : String} {t : List Char} (p : String)
    (h : rel.toList = '/' :: t) :
    joinStart p rel = (t, []) := by
  rw [joinStart, h]
  rfl

theorem joinStart_other {rel : String} (p : String)
    (h : ∀ t, rel.toList ≠ '/' :: t) :
    joinStart p rel = (rel.toList, p.toList) := by
  rw [joinStart.eq_def]
  split
  · next t heq => exact absurd heq (h t)
  · rfl

/-- `join_url` computes exactly the spec's component-level path rule, for
any base path that is the rendering of components free of `/`. -/
theorem join_url_path_spec (r : RemoteRepo) (rel : String) (comps : List (List Char))
    (h : ∀ c ∈ comps, ∀ x ∈ c, x ≠ '/')
    (hp : r.path.toList = renderComps comps) :
    ((join_url r rel).path).toList = specJoinPath comps rel.toList := by
  by_cases hsh : ∃ t, rel.toList = '/' :: t
  · obtain ⟨t, ht⟩ := hsh
    have h0 : ∀ c ∈ ([] : List (List Char)), ∀ x ∈ c, x ≠ '/' := by simp
    have hd := dropDotDots_render t [] h0
    simp only [renderComps] at hd
    simp only [join_url, toList_mk, joinStart_slash _ ht, hd, specJoinPath, ht]
  · push_neg at hsh
    have hd := dropDotDots_render rel.toList comps h
    have hrhs : specJoinPath comps rel.toList
        = (if (specGo rel.toList comps).1.isEmpty
           then renderComps (specGo rel.toList comps).2
           else renderComps (specGo rel.toList comps).2 ++ '/' :: (specGo rel.toList comps).1) := by
      rw [specJoinPath.eq_def]
      split
      · next t heq => exact absurd heq (hsh t)
      · rfl
    simp only [join_url, toList_mk, joinStart_other _ hsh, hp, hd, hrhs]

/-! ## Inversion lemmas for the address matchers -/

/-- The user group either fails (empty, nothing consumed) or matches a
nonempty run followed by its `@`, consuming exactly the group. -/
theorem matchUser_inv (l : List Char) :
    (matchUser l).1 ++ (matchUser l).2 = l ∧
    ((matchUser l).1 = [] ∨ ∃ w, (matchUser l).1 = w ++ ['@']) := by
  rw [matchUser.eq_def]
  split
  · next r heq =>
    split
    · next => simp
    · next =>
      refine ⟨?_, Or.inr ⟨_, rfl⟩⟩
      rw [List.append_assoc, List.singleton_append, ← heq,
          List.takeWhile_append_dropWhile]
  · next => simp

theorem urlMatch_inv {l s u h pt pa r : List Char}
    (hm : urlMatch l = some ⟨s, u, h, pt, pa, r⟩) :
    l = s ++ ':' :: '/' :: '/' :: (u ++ h ++ pt ++ pa ++ r) ∧
    (u = [] ∨ ∃ w, u = w ++ ['@']) ∧
    (pt = [] ∨ ∃ d, pt = ':' :: d) ∧
    (∃ t, pa = '/' :: t) := by
  rw [urlMatch.eq_def] at hm
  split at hm
  · exact absurd hm (by simp)
  · split at hm
    · next r2 heq2 =>
      obtain ⟨hu1, hu2⟩ := matchUser_inv r2
      have hl : l = l.takeWhile isWordChar ++ ':' :: '/' :: '/' :: r2 := by
        conv_lhs => rw [← List.takeWhile_append_dropWhile (p := isWordChar) (l := l)]
        rw [heq2]
      split at hm
      · exact absurd hm (by simp)
      · split at hm
        · next r4 heq4 =>
          have hhost : (matchUser r2).2
              = ((matchUser r2).2).takeWhile isHostChar ++ (':' :: r4) := by
            conv_lhs =>
              rw [← List.takeWhile_append_dropWhile (p := isHostChar)
                    (l := (matchUser r2).2)]
            rw [heq4]
          split at hm
          · exact absurd hm (by simp)
          · split at hm
            · next r5 heq5 =>
              have hr4 : r4 = r4.takeWhile isDigitChar ++ ('/' :: r5) := by
                conv_lhs => rw [← List.takeWhile_append_dropWhile (p := isDigitChar) (l := r4)]
                rw [heq5]
              have hr5 : r5 = r5.takeWhile notNL ++ r5.dropWhile notNL :=
                (List.takeWhile_append_dropWhile notNL r5).symm
              simp only [Option.some.injEq, UrlParts.mk.injEq] at hm
              obtain ⟨rfl, rfl, rfl, rfl, rfl, rfl⟩ := hm
              refine ⟨?_, hu2, Or.inr ⟨_, rfl⟩, ⟨_, rfl⟩⟩
              conv_lhs => rw [hl, ← hu1, hhost, hr4, hr5]
              simp [List.append_assoc]
            · exact absurd hm (by simp)
        · next r4 heq4 =>
          have hhost : (matchUser r2).2
              = ((matchUser r2).2).takeWhile isHostChar ++ ('/' :: r4) := by
            conv_lhs =>
              rw [← List.takeWhile_append_dropWhile (p := isHostChar)
                    (l := (matchUser r2).2)]
            rw [heq4]
          have hr4 : r4 = r4.takeWhile notNL ++ r4.dropWhile notNL :=
            (List.takeWhile_append_dropWhile notNL r4).symm
          simp only [Option.some.injEq, UrlParts.mk.injEq] at hm
          obtain ⟨rfl, rfl, rfl, rfl, rfl, rfl⟩ := hm
          refine ⟨?_, hu2, Or.inl rfl, ⟨_, rfl⟩⟩
          conv_lhs => rw [hl, ← hu1, hhost, hr4]
          simp [List.append_assoc]
        · exact absurd hm (by simp)
    · exact absurd hm (by simp)

theorem scpMatch_inv {l u h pa r : List Char}
    (hm : scpMatch l = some ⟨u, h, pa, r⟩) :
    l = u ++ h ++ ':' :: (pa ++ r) ∧
    (u = [] ∨ ∃ w, u = w ++ ['@']) := by
  rw [scpMatch.eq_def] at hm
  obtain ⟨hu1, hu2⟩ := matchUser_inv l
  split at hm
  · next r2 heq2 =>
    have hrh : (matchUser l).2
        = ((matchUser l).2).takeWhile isHostChar ++ (':' :: r2) := by
      conv_lhs =>
        rw [← List.takeWhile_append_dropWhile (p := isHostChar) (l := (matchUser l).2)]
      rw [heq2]
    have hr2 : r2 = r2.takeWhile notNL ++ r2.dropWhile notNL :=
      (List.takeWhile_append_dropWhile notNL r2).symm
    simp only [Option.some.injEq, ScpParts.mk.injEq] at hm
    obtain ⟨rfl, rfl, rfl, rfl⟩ := hm
    refine ⟨?_, hu2⟩
    conv_lhs => rw [← hu1, hrh, hr2]
    simp [List.append_assoc]
  · exact absurd hm (by simp)

/-! ## Characterization of the submodule line matcher -/

theorem dropWhile_head_false {α : Type} {p : α → Bool} :
    ∀ (l : List α) {c : α} {t : List α}, l.dropWhile p = c :: t → p c = false := by
  intro l
  induction l with
  | nil => intro c t h; simp [List.dropWhile] at h
  | cons a as ih =>
    intro c t h
    rw [List.dropWhile_cons] at h
    split at h
    · exact ih h
    · next hpa =>
      obtain ⟨rfl, rfl⟩ := List.cons.inj h
      simpa using hpa

/-- Completeness of the line matcher: every line of the shape
whitespace⁺ `url` whitespace* `=` whitespace* value — with the value not
itself starting with whitespace, since the greedy `\s*` absorbs any — is
matched and yields exactly the value. -/
theorem matchUrlLine_complete (ws1 ws2 ws3 u : List Char)
    (h1 : ws1 ≠ []) (hw1 : ∀ c ∈ ws1, isSpaceRe c)
    (hw2 : ∀ c ∈ ws2, isSpaceRe c) (hw3 : ∀ c ∈ ws3, isSpaceRe c)
    (hu : ∀ c t, u = c :: t → isSpaceRe c = false) :
    matchUrlLine (ws1 ++ 'u' :: 'r' :: 'l' :: (ws2 ++ '=' :: (ws3 ++ u))) = some u := by
  have hud : u.dropWhile isSpaceRe = u := by
    cases hcu : u with
    | nil => simp
    | cons c t => rw [List.dropWhile_cons, hu c t hcu]; simp
  have htk : (ws1 ++ 'u' :: 'r' :: 'l' :: (ws2 ++ '=' :: (ws3 ++ u))).takeWhile isSpaceRe
      = ws1 := by
    rw [List.takeWhile_append_of_pos hw1, List.takeWhile_cons]
    simp [isSpaceRe]
  have hdr : (ws1 ++ 'u' :: 'r' :: 'l' :: (ws2 ++ '=' :: (ws3 ++ u))).dropWhile isSpaceRe
      = 'u' :: 'r' :: 'l' :: (ws2 ++ '=' :: (ws3 ++ u)) := by
    rw [List.dropWhile_append_of_pos hw1, List.dropWhile_cons]
    simp [isSpaceRe]
  have hr1 : (ws2 ++ '=' :: (ws3 ++ u)).dropWhile isSpaceRe = '=' :: (ws3 ++ u) := by
    rw [List.dropWhile_append_of_pos hw2, List.dropWhile_cons]
    simp [isSpaceRe]
  have hr2 : (ws3 ++ u).dropWhile isSpaceRe = u := by
    rw [List.dropWhile_append_of_pos hw3, hud]
  rw [matchUrlLine.eq_def, htk, hdr]
  cases ws1 with
  | nil => exact absurd rfl h1
  | cons a as => simp [hr1, hr2]

/-- Soundness of the line matcher: a matched line decomposes as
whitespace⁺ `url` whitespace* `=` whitespace* value, the yielded value being
the entire rest of the line after the last whitespace run. -/
theorem matchUrlLine_sound (l u : List Char) (hm : matchUrlLine l = some u) :
    ∃ ws1 ws2 ws3,
      l = ws1 ++ 'u' :: 'r' :: 'l' :: (ws2 ++ '=' :: (ws3 ++ u)) ∧
      ws1 ≠ [] ∧ (∀ c ∈ ws1, isSpaceRe c) ∧ (∀ c ∈ ws2, isSpaceRe c) ∧
      (∀ c ∈ ws3, isSpaceRe c) ∧ (∀ c t, u = c :: t → isSpaceRe c = false) := by
  rw [matchUrlLine.eq_def] at hm
  split at hm
  · exact absurd hm (by simp)
  · next a as r1 heq1 heq2 =>
    split at hm
    · next r2 heq3 =>
      simp only [Option.some.injEq] at hm
      subst hm
      refine ⟨l.takeWhile isSpaceRe, r1.takeWhile isSpaceRe, r2.takeWhile isSpaceRe,
        ?_, ?_, fun c hc => List.mem_takeWhile_imp hc,
        fun c hc => List.mem_takeWhile_imp hc, fun c hc => List.mem_takeWhile_imp hc,
        fun c t h => dropWhile_head_false r2 h⟩
      · have hr1 : r1 = r1.takeWhile isSpaceRe ++ ('=' :: r2) := by
          conv_lhs => rw [← List.takeWhile_append_dropWhile isSpaceRe r1]
          rw [heq3]
        have hr2 : r2 = r2.takeWhile isSpaceRe ++ r2.dropWhile isSpaceRe :=
          (List.takeWhile_append_dropWhile isSpaceRe r2).symm
        conv_lhs => rw [← List.takeWhile_append_dropWhile isSpaceRe l]
        rw [heq2]
        conv_lhs => rw [hr1]
        conv_lhs => rw [hr2]
      · rw [heq1]
        simp
    · exact absurd hm (by simp)
  · exact absurd hm (by simp)

/-! ## Helper lemmas about the mirror coordinator -/

/-- Is the event a clone-or-update (a VCS-executor invocation) for `p`? -/
def isCloneOrUpdateFor (p : String) : MEvent → Bool
  | .clone _ tgt => tgt == p
  | .update tgt => tgt == p
  | .claimed _ => false

theorem mirror_repo_mem (env : Env) (st : List String) (r : String)
    (h : targetOf env r ∈ st) : mirror_repo env st r = (st, [], []) := by
  simp [mirror_repo, h]

theorem mirror_repo_fresh (env : Env) (st : List String) (r : String)
    (h : targetOf env r ∉ st) :
    mirror_repo env st r
      = (st ++ [targetOf env r],
         [(if env.isDir (targetOf env r) then MEvent.update (targetOf env r)
           else MEvent.clone (applyAliases env.aliases r) (targetOf env r)),
          MEvent.claimed (targetOf env r)],
         mirrorSubs (parse_url (applyAliases env.aliases r))
           (env.descriptor (targetOf env r))) := by
  simp [mirror_repo, h]

theorem mirror_repo_mono (env : Env) (st : List String) (r : String) :
    ∀ x ∈ st, x ∈ (mirror_repo env st r).1 := by
  intro x hx
  by_cases h : targetOf env r ∈ st
  · rw [mirror_repo_mem env st r h]
    exact hx
  · rw [mirror_repo_fresh env st r h]
    exact List.mem_append_left _ hx

/-! # Claim theorems -/

/-- **C1.** The claim asserts that a target is recorded in the MirroredSet
(`already_mirrored`) before any clone/update I/O for it.  The code does the
opposite: evaluated at a fresh address, `Local.mirror_repo` produces the
event trace clone first, claim second — `self.already_mirrored.append(local)`
runs only after `_clone`/`_update` return, so the claim-before-I/O ordering
the spec mandates (and §9 of the spec singles out) is violated. -/
theorem mirror_repo_claims_after_io :
    (mirror_repo ⟨"local", [], fun _ => false, fun _ => none⟩ []
        "ssh://git@host/org/repo.git").2.1
      = [MEvent.clone "ssh://git@host/org/repo.git" "local/host/org/repo.git",
         MEvent.claimed "local/host/org/repo.git"] := by
  decide

/-- **C4.** Dedup of two mirror tasks resolving to the same local target,
executed one after the other: the first fresh run performs exactly one
clone-or-update for that target, the second run is a complete no-op (state
unchanged, no events — hence no VCS-executor invocation — and no submitted
tasks), and `already_mirrored` only ever grows. -/
theorem mirror_repo_dedup_same_target :
    (∀ (env : Env) (st : List String) (a b : String),
        targetOf env b = targetOf env a →
        targetOf env a ∉ st →
        mirror_repo env (mirror_repo env st a).1 b = ((mirror_repo env st a).1, [], []) ∧
        ((mirror_repo env st a).2.1
            ++ (mirror_repo env (mirror_repo env st a).1 b).2.1).countP
          (isCloneOrUpdateFor (targetOf env a)) = 1) ∧
    (∀ (env : Env) (st : List String) (r x : String),
        x ∈ st → x ∈ (mirror_repo env st r).1) := by
  constructor
  · intro env st a b hsame hnew
    have h1 := mirror_repo_fresh env st a hnew
    have hmem : targetOf env b ∈ (mirror_repo env st a).1 := by
      rw [h1, hsame]
      exact List.mem_append_right _ (by simp)
    have h2 := mirror_repo_mem env _ b hmem
    refine ⟨h2, ?_⟩
    rw [h2, h1]
    cases hd : env.isDir (targetOf env a) <;>
      simp [isCloneOrUpdateFor, List.countP_cons, List.countP_nil]
  · exact mirror_repo_mono

/-- **C4 witness.** Two concrete addresses — one URL-form, one SCP-form —
resolving to the same local target `local/h/r.git`, run back to back from an
empty MirroredSet. -/
theorem mirror_repo_dedup_same_target_witness :
    (targetOf ⟨"local", [], fun _ => false, fun _ => none⟩ "h:/r.git"
        = targetOf ⟨"local", [], fun _ => false, fun _ => none⟩ "ssh://git@h/r.git") ∧
    (targetOf ⟨"local", [], fun _ => false, fun _ => none⟩ "ssh://git@h/r.git" ∉ ([] : List String)) ∧
    (mirror_repo ⟨"local", [], fun _ => false, fun _ => none⟩
        (mirror_repo ⟨"local", [], fun _ => false, fun _ => none⟩ [] "ssh://git@h/r.git").1
        "h:/r.git"
      = ((mirror_repo ⟨"local", [], fun _ => false, fun _ => none⟩ [] "ssh://git@h/r.git").1, [], []) ∧
     ((mirror_repo ⟨"local", [], fun _ => false, fun _ => none⟩ [] "ssh://git@h/r.git").2.1
        ++ (mirror_repo ⟨"local", [], fun _ => false, fun _ => none⟩
              (mirror_repo ⟨"local", [], fun _ => false, fun _ => none⟩ [] "ssh://git@h/r.git").1
              "h:/r.git").2.1).countP
        (isCloneOrUpdateFor (targetOf ⟨"local", [], fun _ => false, fun _ => none⟩
            "ssh://git@h/r.git")) = 1) :=
  ⟨by decide, by decide,
   mirror_repo_dedup_same_target.1 _ _ _ _ (by decide) (by decide)⟩

/-- **C6.** `join_url` preserves scheme, user, host and port (and the
variant); its path computation is exactly the spec's component-level rule
(leading `/` replaces the path, each leading `../` drops one trailing
component, the remainder is appended); and the submodule scenario holds:
host `host`, path `/org/repo.git` joined with `../libs/dep.git` gives host
`host`, path `/org/libs/dep.git`. -/
theorem join_url_preserves_and_resolves :
    (∀ (r : RemoteRepo) (rel : String),
        (join_url r rel).kind = r.kind ∧ (join_url r rel).scheme = r.scheme ∧
        (join_url r rel).user = r.user ∧ (join_url r rel).host = r.host ∧
        (join_url r rel).port = r.port) ∧
    (∀ (r : RemoteRepo) (rel : String) (comps : List (List Char)),
        (∀ c ∈ comps, ∀ x ∈ c, x ≠ '/') →
        r.path.toList = renderComps comps →
        ((join_url r rel).path).toList = specJoinPath comps rel.toList) ∧
    (join_url ⟨RKind.url, "ssh", "git@", "host", "", "/org/repo.git"⟩ "../libs/dep.git"
      = ⟨RKind.url, "ssh", "git@", "host", "", "/org/libs/dep.git"⟩) :=
  ⟨fun _ _ => ⟨rfl, rfl, rfl, rfl, rfl⟩, join_url_path_spec, by decide⟩

/-- **C6 witness.** The component rule applied concretely: base path
`/org/repo.git` (components `org`, `repo.git`) joined with
`../libs/dep.git`. -/
theorem join_url_preserves_and_resolves_witness :
    (∀ c ∈ [['o','r','g'], ['r','e','p','o','.','g','i','t']], ∀ x ∈ c, x ≠ '/') ∧
    ((⟨RKind.url, "ssh", "git@", "host", "", "/org/repo.git"⟩ : RemoteRepo).path.toList
        = renderComps [['o','r','g'], ['r','e','p','o','.','g','i','t']]) ∧
    ((join_url ⟨RKind.url, "ssh", "git@", "host", "", "/org/repo.git"⟩ "../libs/dep.git").path).toList
        = specJoinPath [['o','r','g'], ['r','e','p','o','.','g','i','t']]
            ("../libs/dep.git".toList) :=
  ⟨by decide, by decide,
   join_url_preserves_and_resolves.2.1 _ _ _ (by decide) (by decide)⟩

/-- **C7 counterexample.** The claim (spec §8) says `join("../x")` on path
`/a/b/c` yields `/a/x`; the code removes one trailing component and then
appends, yielding `/a/b/x`. -/
theorem join_url_dotdot_counterexample :
    (join_url ⟨RKind.url, "s", "", "h", "", "/a/b/c"⟩ "../x").path = "/a/b/x" ∧
    (join_url ⟨RKind.url, "s", "", "h", "", "/a/b/c"⟩ "../x").path ≠ "/a/x" := by
  decide

/-- **C7 (amended).** On path `/a/b/c`: `join("../x")` yields `/a/b/x` and
`join("../../x")` yields `/a/x` (one trailing component removed per `../`);
`join("/x")` yields `/x` regardless of the current path. -/
theorem join_url_dotdot_algebra :
    (∀ r : RemoteRepo, r.path = "/a/b/c" →
        (join_url r "../x").path = "/a/b/x" ∧ (join_url r "../../x").path = "/a/x") ∧
    (∀ r : RemoteRepo, (join_url r "/x").path = "/x") := by
  constructor
  · intro r hp
    have e1 : (join_url r "../x").path
        = (join_url ⟨RKind.url, "", "", "", "", r.path⟩ "../x").path := rfl
    have e2 : (join_url r "../../x").path
        = (join_url ⟨RKind.url, "", "", "", "", r.path⟩ "../../x").path := rfl
    rw [e1, e2, hp]
    exact ⟨by decide, by decide⟩
  · intro r
    rfl

/-- **C7 witness.** The amended equations at a concrete address with path
`/a/b/c`. -/
theorem join_url_dotdot_algebra_witness :
    ((⟨RKind.url, "s", "", "hst", "", "/a/b/c"⟩ : RemoteRepo).path = "/a/b/c") ∧
    ((join_url ⟨RKind.url, "s", "", "hst", "", "/a/b/c"⟩ "../x").path = "/a/b/x" ∧
     (join_url ⟨RKind.url, "s", "", "hst", "", "/a/b/c"⟩ "../../x").path = "/a/x") :=
  ⟨rfl, join_url_dotdot_algebra.1 _ rfl⟩

/-- **C8.** The claim says the alias rewrite replaces exactly the leading
prefix occurrence, leaving the rest of the string unchanged.  The code uses
`remote.replace(original, replacement)`, which replaces **every**
occurrence: with alias `ab → X`, the address `abcab` becomes `XcX`, not the
`Xcab` the claim requires. -/
theorem alias_rewrite_replaces_all_occurrences :
    applyAliases [("ab", "X")] "abcab" = "XcX" ∧
    applyAliases [("ab", "X")] "abcab" ≠ "X" ++ "cab" := by
  decide

/-- **C9.** The claim says any string prefixed `file://` is parsed as a File
address with the prefix stripped.  In fact every `file://`-prefixed string
matches the SCP pattern (host `file`, path the remainder after the colon) —
or the URL pattern when a host follows — so the `file://`-stripping branch
is unreachable: `file:///home/x` parses as an SCP address, not a File one. -/
theorem parse_url_file_prefix_is_scp :
    parse_url "file:///home/x" = ⟨RKind.scp, "", "", "file", "", "///home/x"⟩ ∧
    (parse_url "file:///home/x").kind ≠ RKind.file ∧
    (parse_url "file://host/path").kind = RKind.url := by
  decide

/-- **C5 counterexample.** The regex is `\s+url\s*=\s*`: it requires at
least one leading whitespace character, while the claim says *optional*
leading whitespace.  The line `url = a` (no leading whitespace) is not
matched, so nothing is extracted where the claim predicts `["a"]`. -/
theorem getSubmodules_requires_leading_space :
    getSubmodules "url = a" = [] ∧ getSubmodules "url = a" ≠ ["a"] := by
  decide

/-- **C5 (amended).** Extraction scans the descriptor line by line and
yields exactly the values of the lines consisting of **at least one**
whitespace character, the literal `url`, optional whitespace, `=`, optional
whitespace, then the value (the rest of the line, which consequently does
not itself begin with whitespace), in file order including duplicates; in
particular the lines `  url = a`, `path = foo`, `\turl=b` yield exactly
`["a", "b"]` in that order. -/
theorem getSubmodules_extracts_matching_lines :
    (∀ ws1 ws2 ws3 u : List Char,
        ws1 ≠ [] → (∀ c ∈ ws1, isSpaceRe c) → (∀ c ∈ ws2, isSpaceRe c) →
        (∀ c ∈ ws3, isSpaceRe c) → (∀ c t, u = c :: t → isSpaceRe c = false) →
        matchUrlLine (ws1 ++ 'u' :: 'r' :: 'l' :: (ws2 ++ '=' :: (ws3 ++ u))) = some u) ∧
    (∀ l u : List Char, matchUrlLine l = some u →
        ∃ ws1 ws2 ws3,
          l = ws1 ++ 'u' :: 'r' :: 'l' :: (ws2 ++ '=' :: (ws3 ++ u)) ∧
          ws1 ≠ [] ∧ (∀ c ∈ ws1, isSpaceRe c) ∧ (∀ c ∈ ws2, isSpaceRe c) ∧
          (∀ c ∈ ws3, isSpaceRe c) ∧ (∀ c t, u = c :: t → isSpaceRe c = false)) ∧
    (∀ text : String, getSubmodules text
        = (splitlines text).filterMap (fun l => (matchUrlLine l).map (fun v => ⟨v⟩))) ∧
    getSubmodules "  url = a\npath = foo\n\turl=b" = ["a", "b"] :=
  ⟨matchUrlLine_complete, matchUrlLine_sound, fun _ => rfl, by decide⟩

/-- **C5 witness.** The matcher applied to the concrete line `\turl= a`:
one tab of required whitespace, no whitespace before `=`, one space after. -/
theorem getSubmodules_extracts_matching_lines_witness :
    (['\t'] : List Char) ≠ [] ∧
    matchUrlLine (['\t'] ++ 'u' :: 'r' :: 'l' :: ([] ++ '=' :: ([' '] ++ ['a'])))
      = some ['a'] :=
  ⟨by decide,
   getSubmodules_extracts_matching_lines.1 ['\t'] [] [' '] ['a']
     (by decide) (by decide) (by decide) (by decide)
     (fun c t h => by cases h; decide)⟩

/-- **C2.** Drain completeness for deterministic finite workloads.
Single-threaded queue: the list of executed identities is a permutation of
(the same multiset as) the recursive simulation.  Threaded queue: at any
quiescent state of any worker interleaving the multiset of completed
identities is exactly the recursive simulation — every transitively
generated task is executed exactly once — and some quiescent state is
always reached, so `runall()` returns. -/
theorem runall_drain_completeness :
    (∀ q : List TTree, (↑(runallSingle q) : Multiset Nat) = ↑(simList q)) ∧
    (∀ (q : List TTree) (s : TQState),
        TQReach (initState q) s → Quiescent s → s.done = ↑(simList q)) ∧
    (∀ q : List TTree, ∃ s, TQReach (initState q) s ∧ Quiescent s) :=
  ⟨runallSingle_perm, fun _ _ hr hq => quiescent_done hr hq,
   fun _ => exists_quiescent _⟩

/-- **C2 witness.** A concrete two-step execution of the threaded queue on
the seed `[task 5]`: a worker takes the task, then finishes it; the
resulting quiescent state has done-multiset `{5}`, as the simulation says. -/
theorem runall_drain_completeness_witness :
    TQReach (initState [TTree.mk 5 []]) ⟨0, 0, {5}⟩ ∧
    Quiescent (⟨0, 0, {5}⟩ : TQState) ∧
    (⟨0, 0, {5}⟩ : TQState).done = ↑(simList [TTree.mk 5 []]) := by
  have h1 := TQStep.take (TTree.mk 5 []) (initState [TTree.mk 5 []]) (by decide)
  have h2 := TQStep.finish (TTree.mk 5 [])
      ⟨(initState [TTree.mk 5 []]).pending.erase (TTree.mk 5 []),
       TTree.mk 5 [] ::ₘ (initState [TTree.mk 5 []]).inflight,
       (initState [TTree.mk 5 []]).done⟩ (by decide)
  have hr12 := Relation.ReflTransGen.tail (Relation.ReflTransGen.single h1) h2
  have hr : TQReach (initState [TTree.mk 5 []]) (⟨0, 0, {5}⟩ : TQState) := hr12
  exact ⟨hr, ⟨rfl, rfl⟩, runall_drain_completeness.2.1 _ _ hr ⟨rfl, rfl⟩⟩

/-- **C3 counterexample.** `SingleTaskQueue.runall` calls
`task(*args, **kwargs)` with no surrounding handler: with a failing task
queued first, the exception propagates out of `runall` (the `some 1`
outcome) and the sibling task 2 never executes — the failure is neither
swallowed nor isolated, refuting the claim for this queue. -/
theorem single_queue_propagates_failure :
    runallSingleE [ETree.mk 1 true [], ETree.mk 2 false []] = ([], some 1) ∧
    ¬ ((runallSingleE [ETree.mk 1 true [], ETree.mk 2 false []]).2 = none ∧
       2 ∈ (runallSingleE [ETree.mk 1 true [], ETree.mk 2 false []]).1) := by
  have h : runallSingleE [ETree.mk 1 true [], ETree.mk 2 false []] = ([], some 1) := by
    simp [runallSingleE]
  exact ⟨h, by simp [h]⟩

/-- **C3 (amended).** In the threaded queue — the one `taskqueue()` returns
to the program — `_runthread` catches every `Exception` and still reaches
`task_done`, so a failing task steps exactly like a succeeding one (modelled
by erasing the failure flags): every sibling and subsequently submitted task
executes to completion, each exactly once, the failing task included in the
done-multiset (treated as complete, never re-enqueued), and `runall()`
returns.  In `SingleTaskQueue.runall`, by contrast, the body has no handler:
a failing task makes `runall` propagate immediately, executing nothing
further. -/
theorem threaded_queue_swallows_failures :
    (∀ (q : List ETree) (s : TQState),
        TQReach (initState (forgetList q)) s → Quiescent s →
        s.done = ↑(simList (forgetList q))) ∧
    (∀ q : List ETree, ∃ s, TQReach (initState (forgetList q)) s ∧ Quiescent s) ∧
    (∀ (i : Nat) (cs rest : List ETree),
        runallSingleE (ETree.mk i true cs :: rest) = ([], some i)) :=
  ⟨fun _ _ hr hq => quiescent_done hr hq, fun _ => exists_quiescent _,
   fun _ _ _ => by simp [runallSingleE]⟩

/-- **C3 witness.** The threaded queue run on one deliberately failing task
(identity 7): it is taken, "finishes" through the exception handler, and the
quiescent state records it as done. -/
theorem threaded_queue_swallows_failures_witness :
    TQReach (initState (forgetList [ETree.mk 7 true []])) ⟨0, 0, {7}⟩ ∧
    Quiescent (⟨0, 0, {7}⟩ : TQState) ∧
    (⟨0, 0, {7}⟩ : TQState).done = ↑(simList (forgetList [ETree.mk 7 true []])) := by
  have h1 := TQStep.take (TTree.mk 7 []) (initState (forgetList [ETree.mk 7 true []]))
      (by decide)
  have h2 := TQStep.finish (TTree.mk 7 [])
      ⟨(initState (forgetList [ETree.mk 7 true []])).pending.erase (TTree.mk 7 []),
       TTree.mk 7 [] ::ₘ (initState (forgetList [ETree.mk 7 true []])).inflight,
       (initState (forgetList [ETree.mk 7 true []])).done⟩ (by decide)
  have hr12 := Relation.ReflTransGen.tail (Relation.ReflTransGen.single h1) h2
  have hr : TQReach (initState (forgetList [ETree.mk 7 true []])) (⟨0, 0, {7}⟩ : TQState) :=
    hr12
  exact ⟨hr, ⟨rfl, rfl⟩, threaded_queue_swallows_failures.1 _ _ hr ⟨rfl, rfl⟩⟩

/-- **C10.** Round-trip of parsing and serialization.  A string fully
matched by the URL pattern (empty residual: `.` stops at newlines, and the
path runs to the end) deparses back to the original string; likewise a
string that fails the URL pattern and is fully matched by the SCP pattern.
Moreover every parsed Url address keeps the `@` of a present user and the
`:` of a present port inside those substrings (empty when absent), and
every parsed Scp address has empty scheme and port and keeps the user's
`@`. -/
theorem parse_deparse_roundtrip :
    (∀ (x : String) (s u h pt pa : List Char),
        urlMatch x.toList = some ⟨s, u, h, pt, pa, []⟩ →
        deparse (parse_url x) = x) ∧
    (∀ (x : String) (u h pa : List Char),
        urlMatch x.toList = none →
        scpMatch x.toList = some ⟨u, h, pa, []⟩ →
        deparse (parse_url x) = x) ∧
    (∀ x : String, (parse_url x).kind = RKind.url →
        ((parse_url x).user = "" ∨ ∃ w, (parse_url x).user = w ++ "@") ∧
        ((parse_url x).port = "" ∨ ∃ d, (parse_url x).port = ":" ++ d)) ∧
    (∀ x : String, (parse_url x).kind = RKind.scp →
        ((parse_url x).user = "" ∨ ∃ w, (parse_url x).user = w ++ "@") ∧
        (parse_url x).scheme = "" ∧ (parse_url x).port = "") := by
  refine ⟨?_, ?_, ?_, ?_⟩
  · intro x s u h pt pa hm
    obtain ⟨hx, _, _, _⟩ := urlMatch_inv hm
    obtain ⟨xl⟩ := x
    have hm' : urlMatch (String.mk xl).data = some ⟨s, u, h, pt, pa, []⟩ := hm
    have hx' : xl = s ++ ':' :: '/' :: '/' :: (u ++ h ++ pt ++ pa ++ []) := hx
    show deparse (parse_url ⟨xl⟩) = ⟨xl⟩
    simp only [parse_url, hm, hm', deparse]
    rw [show ("://" : String) = ⟨[':', '/', '/']⟩ from rfl]
    simp only [mk_append]
    rw [hx']
    simp [List.append_assoc]
  · intro x u h pa hnone hm
    obtain ⟨hx, _⟩ := scpMatch_inv hm
    obtain ⟨xl⟩ := x
    have hnone' : urlMatch (String.mk xl).data = none := hnone
    have hm' : scpMatch (String.mk xl).data = some ⟨u, h, pa, []⟩ := hm
    have hx' : xl = u ++ h ++ ':' :: (pa ++ []) := hx
    show deparse (parse_url ⟨xl⟩) = ⟨xl⟩
    simp only [parse_url, hnone, hnone', hm, hm', deparse]
    rw [show (":" : String) = ⟨[':']⟩ from rfl]
    simp only [mk_append]
    rw [hx']
    simp [List.append_assoc]
  · intro x hk
    cases hu : urlMatch x.toList with
    | some g =>
      obtain ⟨s, u, h, pt, pa, r⟩ := g
      have hu' : urlMatch x.data = some ⟨s, u, h, pt, pa, r⟩ := hu
      have hp : parse_url x = ⟨.url, ⟨s⟩, ⟨u⟩, ⟨h⟩, ⟨pt⟩, ⟨pa⟩⟩ := by
        simp [parse_url, hu, hu']
      obtain ⟨_, hu2, hpt2, _⟩ := urlMatch_inv hu
      rw [hp]
      constructor
      · rcases hu2 with rfl | ⟨w, rfl⟩
        · exact Or.inl rfl
        · refine Or.inr ⟨⟨w⟩, ?_⟩
          rw [show ("@" : String) = ⟨['@']⟩ from rfl, mk_append]
      · rcases hpt2 with rfl | ⟨d, rfl⟩
        · exact Or.inl rfl
        · refine Or.inr ⟨⟨d⟩, ?_⟩
          rw [show (":" : String) = ⟨[':']⟩ from rfl, mk_append]
          rfl
    | none =>
      exfalso
      have hu' : urlMatch x.data = none := hu
      cases hs : scpMatch x.toList with
      | some g =>
        obtain ⟨u, h, pa, r⟩ := g
        have hs' : scpMatch x.data = some ⟨u, h, pa, r⟩ := hs
        simp [parse_url, hu, hu', hs, hs'] at hk
      | none =>
        have hs' : scpMatch x.data = none := hs
        simp only [parse_url, hu, hu', hs, hs'] at hk
        split at hk <;> simp at hk
  · intro x hk
    cases hu : urlMatch x.toList with
    | some g =>
      obtain ⟨s, u, h, pt, pa, r⟩ := g
      exfalso
      have hu' : urlMatch x.data = some ⟨s, u, h, pt, pa, r⟩ := hu
      simp [parse_url, hu, hu'] at hk
    | none =>
      have hu' : urlMatch x.data = none := hu
      cases hs : scpMatch x.toList with
      | some g =>
        obtain ⟨u, h, pa, r⟩ := g
        have hs' : scpMatch x.data = some ⟨u, h, pa, r⟩ := hs
        have hp : parse_url x = ⟨.scp, "", ⟨u⟩, ⟨h⟩, "", ⟨pa⟩⟩ := by
          simp [parse_url, hu, hu', hs, hs']
        obtain ⟨_, hu2⟩ := scpMatch_inv hs
        rw [hp]
        refine ⟨?_, rfl, rfl⟩
        rcases hu2 with rfl | ⟨w, rfl⟩
        · exact Or.inl rfl
        · refine Or.inr ⟨⟨w⟩, ?_⟩
          rw [show ("@" : String) = ⟨['@']⟩ from rfl, mk_append]
      | none =>
        exfalso
        have hs' : scpMatch x.data = none := hs
        simp only [parse_url, hu, hu', hs, hs'] at hk
        split at hk <;> simp at hk

/-- **C10 witness.** A representative Url input with every optional part
present (`user` and `port`), fully matched, reproduced byte for byte. -/
theorem parse_deparse_roundtrip_witness :
    urlMatch ("ssh://git@host:22/a/b.git".toList)
      = some ⟨['s', 's', 'h'], ['g', 'i', 't', '@'], ['h', 'o', 's', 't'],
              [':', '2', '2'], ['/', 'a', '/', 'b', '.', 'g', 'i', 't'], []⟩ ∧
    deparse (parse_url "ssh://git@host:22/a/b.git") = "ssh://git@host:22/a/b.git" :=
  ⟨by decide,
   parse_deparse_roundtrip.1 "ssh://git@host:22/a/b.git"
     ['s', 's', 'h'] ['g', 'i', 't', '@'] ['h', 'o', 's', 't']
     [':', '2', '2'] ['/', 'a', '/', 'b', '.', 'g', 'i', 't'] (by decide)⟩

end Linkrottie
